import Mathlib

/-!
Shallow embedding of the core data model and cache operations of the
cistern/citop repository (package `cache`, plus `utils` helpers), together
with proofs settling the specification claims about them.

Modelling conventions:
* `time.Time` values are modelled as integers (`Int`, e.g. nanoseconds since
  epoch); `Time.After` is `>` and `Time.Before` is `<`.
* Go maps are modelled as functions into `Option`; map update is pointwise
  override, `delete` sets the entry to `none`.
* Go pointers (`*Pipeline`) are modelled with an explicit heap: a list of
  pipelines addressed by index.  Pointer equality is address equality and
  allocation (`&p`) appends to the heap, returning a fresh address.
* `panic` and fallible operations are modelled with `Except`.
-/

namespace Citop

/-! ## utils: nullable primitives (src/utils/utils.go) -/

structure NullString where
  Valid : Bool
  Str : String
deriving DecidableEq, Repr

structure NullTime where
  Valid : Bool
  Time : Int
deriving DecidableEq, Repr

structure NullDuration where
  Valid : Bool
  Duration : Int
deriving DecidableEq, Repr

/-- `utils.MinNullTime` (variadic in Go, modelled on a list). -/
def MinNullTime (times : List NullTime) : NullTime :=
  times.foldl
    (fun result t =>
      if result.Valid then
        if t.Valid ∧ t.Time < result.Time then t else result
      else t)
    ⟨false, 0⟩

/-- `utils.MaxNullTime` (variadic in Go, modelled on a list). -/
def MaxNullTime (times : List NullTime) : NullTime :=
  times.foldl
    (fun result t =>
      if result.Valid then
        if t.Valid ∧ result.Time < t.Time then t else result
      else t)
    ⟨false, 0⟩

/-- `utils.NullSub` -/
def NullSub (after before : NullTime) : NullDuration :=
  ⟨after.Valid && before.Valid, after.Time - before.Time⟩

/-! ## cache: states (src/cache/cache.go) -/

inductive State where
  | Unknown
  | Pending
  | Running
  | Passed
  | Failed
  | Canceled
  | Manual
  | Skipped
deriving DecidableEq, Repr

/-- `State.IsActive` -/
def State.IsActive (s : State) : Bool :=
  s = State.Pending || s = State.Running

/-- The `statePrecedence` map of src/cache/cache.go. -/
def statePrecedence : State → Nat
  | .Unknown => 80
  | .Running => 70
  | .Pending => 60
  | .Canceled => 50
  | .Failed => 40
  | .Passed => 30
  | .Skipped => 20
  | .Manual => 10

/-- `State.merge` -/
def State.merge (s other : State) : State :=
  if statePrecedence other < statePrecedence s then s else other

/-! ## cache: steps and pipelines -/

inductive StepType where
  | StepPipeline
  | StepStage
  | StepJob
  | StepTask
deriving DecidableEq, Repr

structure Log where
  Key : String
  Content : NullString
deriving DecidableEq, Repr

/-- The non-recursive fields of `cache.Step`. -/
structure StepData where
  ID : String
  Name : String
  type_ : StepType -- Go field `Type` (`Type` is reserved in Lean)
  State : State
  AllowFailure : Bool
  CreatedAt : NullTime
  StartedAt : NullTime
  FinishedAt : NullTime
  UpdatedAt : Int
  Duration : NullDuration
  WebURL : NullString
  Log : Log
deriving DecidableEq, Repr

/-- `cache.Step`: the data fields plus the ordered list of children.
(A Lean `structure` cannot be recursive, hence the two-level encoding.) -/
inductive Step where
  | mk (data : StepData) (children : List Step)

def Step.data : Step → StepData
  | .mk d _ => d

def Step.children : Step → List Step
  | .mk _ cs => cs

/-- Go zero value of `Step` (`Step{}`); the zero `State` is `""`, i.e.
`Unknown`, and the zero `StepType` is `StepPipeline`. -/
def zeroStepData : StepData :=
  { ID := "", Name := "", type_ := .StepPipeline, State := .Unknown,
    AllowFailure := false, CreatedAt := ⟨false, 0⟩, StartedAt := ⟨false, 0⟩,
    FinishedAt := ⟨false, 0⟩, UpdatedAt := 0, Duration := ⟨false, 0⟩,
    WebURL := ⟨false, ""⟩, Log := ⟨"", ⟨false, ""⟩⟩ }

def zeroStep : Step := .mk zeroStepData []

/-- The loop body of `Aggregate` that rewrites the state of a step marked
`AllowFailure` and in a failed or canceled state to `Passed`. -/
def fixAllowFailure (s : Step) : Step :=
  if s.data.AllowFailure ∧ (s.data.State = .Canceled ∨ s.data.State = .Failed) then
    .mk { s.data with State := .Passed } s.children
  else s

/-- `cache.Aggregate` -/
def Aggregate : List Step → Step
  | [] => zeroStep
  | [s] => s
  | s :: t :: rest =>
    let first := fixAllowFailure s
    let last := fixAllowFailure (Aggregate (t :: rest))
    let fin := MaxNullTime [first.data.FinishedAt, last.data.FinishedAt]
    let started := MinNullTime [first.data.StartedAt, last.data.StartedAt]
    let updated :=
      if first.data.UpdatedAt < last.data.UpdatedAt then last.data.UpdatedAt
      else first.data.UpdatedAt
    .mk
      { zeroStepData with
        State := first.data.State.merge last.data.State,
        CreatedAt := MinNullTime [first.data.CreatedAt, last.data.CreatedAt],
        StartedAt := started,
        FinishedAt := fin,
        Duration := NullSub fin started,
        UpdatedAt := updated }
      (s :: t :: rest)

structure GitReference where
  SHA : String
  Ref : String
  IsTag : Bool
deriving DecidableEq, Repr

/-- `cache.Pipeline`; Go embeds `Step`, so `p.State` reads `p.Step.State`,
`p.UpdatedAt` reads `p.Step.UpdatedAt`, and so on. -/
structure Pipeline where
  Number : String
  providerID : String
  providerHost : String
  gitRef : GitReference
  step : Step

structure PipelineKey where
  ProviderHost : String
  ID : String
deriving DecidableEq, Repr

/-- `Pipeline.Key` -/
def Pipeline.key (p : Pipeline) : PipelineKey :=
  ⟨p.providerHost, p.step.data.ID⟩

def zeroPipeline : Pipeline :=
  ⟨"", "", "", ⟨"", "", false⟩, zeroStep⟩

/-! ## cache: commits -/

structure Commit where
  Sha : String
  Author : String
  Date : Int
  Message : String
  Branches : List String
  Tags : List String
  Head : String
  Statuses : List String
deriving DecidableEq, Repr

/-! ## cache: the Cache structure and its operations -/

/-- Go map update `m[k] = v`. -/
def mapUpdate {K V : Type} [DecidableEq K] (m : K → Option V) (k : K) (v : V) :
    K → Option V :=
  fun k' => if k' = k then some v else m k'

/-- Go map `delete(m, k)`. -/
def mapErase {K V : Type} [DecidableEq K] (m : K → Option V) (k : K) :
    K → Option V :=
  fun k' => if k' = k then none else m k'

/-- A CI provider instance, reduced to the pure data its interface methods
`ID()`, `Host()` and `Name()` return.  The effectful `Log` and `BuildFromURL`
methods are modelled as oracle parameters where needed. -/
structure CIProvider where
  id : String
  host : String
  name : String
deriving DecidableEq, Repr

structure Cache where
  heap : List Pipeline
  ciProvidersByID : String → Option CIProvider
  commitsByRef : String → Option Commit
  pipelineByKey : PipelineKey → Option Nat
  pipelineByRef : String → Option (PipelineKey → Option Nat)

/-- Dereference a pipeline address. -/
def heapGet (c : Cache) (addr : Nat) : Pipeline :=
  c.heap.getD addr zeroPipeline

/-- `pipelineByRef[ref]` as a total lookup: an absent inner map behaves as an
empty one for reads. -/
def refIndex (c : Cache) (ref : String) : PipelineKey → Option Nat :=
  (c.pipelineByRef ref).getD (fun _ => none)

inductive CacheError where
  | ErrObsoleteBuild
deriving DecidableEq, Repr

/-- The final (overwrite/install) part of `Cache.SavePipeline`: store `&p`
under its key and point the ref index at it. -/
def savePipelineInstall (c : Cache) (ref : String) (p : Pipeline) :
    Cache × Option CacheError :=
  let addr := c.heap.length
  let refMap := refIndex c ref
  ({ c with
      heap := c.heap ++ [p],
      pipelineByKey := mapUpdate c.pipelineByKey p.key addr,
      pipelineByRef := mapUpdate c.pipelineByRef ref (mapUpdate refMap p.key addr) },
   none)

/-- `Cache.SavePipeline` -/
def savePipeline (c : Cache) (ref : String) (p : Pipeline) :
    Cache × Option CacheError :=
  match c.pipelineByKey p.key with
  | some addr =>
    if ¬ p.step.data.State.IsActive ∧
        ¬ ((heapGet c addr).step.data.UpdatedAt < p.step.data.UpdatedAt) then
      -- Point ref to existingBuild (creating the inner map if absent)
      let refMap := refIndex c ref
      let c1 : Cache := { c with pipelineByRef := mapUpdate c.pipelineByRef ref refMap }
      if refMap p.key = some addr then
        (c1, some .ErrObsoleteBuild)
      else
        ({ c1 with
            pipelineByRef := mapUpdate c1.pipelineByRef ref (mapUpdate refMap p.key addr) },
         none)
    else
      savePipelineInstall c ref p
  | none => savePipelineInstall c ref p

/-- The branch/tag merge loop of `Cache.SaveCommit`: append the incoming
names, skipping those present in the snapshot `old` taken before the loop. -/
def appendMissing (old incoming : List String) : List String :=
  incoming.foldl (fun acc b => if b ∈ old then acc else acc ++ [b]) old

/-- `Cache.SaveCommit` -/
def saveCommit (c : Cache) (ref : String) (commit : Commit) : Cache :=
  match c.commitsByRef ref with
  | some previousCommit =>
    let c1 :=
      if previousCommit.Sha ≠ commit.Sha then
        { c with pipelineByRef := mapErase c.pipelineByRef ref }
      else c
    let merged :=
      { previousCommit with
        Branches := appendMissing previousCommit.Branches commit.Branches,
        Tags := appendMissing previousCommit.Tags commit.Tags }
    { c1 with commitsByRef := mapUpdate c1.commitsByRef ref merged }
  | none => { c with commitsByRef := mapUpdate c.commitsByRef ref commit }

/-- `Cache.Pipeline` -/
def cachePipeline (c : Cache) (key : PipelineKey) : Option Pipeline :=
  match c.pipelineByKey key with
  | none => none
  | some addr => some (heapGet c addr)

/-- The id-walk loop of `Cache.Step`: at each level scan the children for the
first one whose `ID` matches. -/
def walkSteps : Step → List String → Option Step
  | step, [] => some step
  | step, id :: rest =>
    match step.children.find? (fun childStep => childStep.data.ID == id) with
    | some childStep => walkSteps childStep rest
    | none => none

/-- `Cache.Step` -/
def cacheStep (c : Cache) (key : PipelineKey) (stepIDs : List String) : Option Step :=
  match cachePipeline c key with
  | none => none
  | some p => walkSteps p.step stepIDs

/-! ## view model (the unnamed `cache` package file with `taskFromStep`) -/

def maxStepIDs : Nat := 10

/-- `taskKey`; in Go `stepIDs` is a fixed array `[maxStepIDs]utils.NullString`,
modelled as a list (of length `maxStepIDs` wherever the code builds one). -/
structure TaskKey where
  providerHost : String
  stepIDs : List NullString
deriving DecidableEq, Repr

inductive LogError where
  | noMatchingStep
  | noMatchingProvider
  | providerFailure (msg : String)
deriving DecidableEq, Repr

/-- `strings.HasSuffix`, computed on the character lists. -/
def hasSuffix (s suffix : String) : Bool :=
  suffix.data.isSuffixOf s.data

/-- The trailing normalization of `Cache.Log`: append a newline unless the
log already ends with one. -/
def normalizeLog (log : String) : String :=
  if hasSuffix log "\n" then log else log ++ "\n"

/-- `Cache.Log`.  The CI provider's `Log` method is an oracle parameter
`providerLog`, keyed by the provider id recorded in the pipeline. -/
def cacheLog (c : Cache) (providerLog : String → Step → Except LogError String)
    (key : TaskKey) : Except LogError String :=
  let pKey : PipelineKey := ⟨key.providerHost, (key.stepIDs.headD ⟨false, ""⟩).Str⟩
  let stepIDs :=
    ((key.stepIDs.drop 1).takeWhile (fun id => id.Valid)).map (fun id => id.Str)
  match cacheStep c pKey stepIDs with
  | none => .error .noMatchingStep
  | some step =>
    if step.data.Log.Content.Valid then
      .ok (normalizeLog step.data.Log.Content.Str)
    else
      -- Go reads c.Pipeline(pKey) with an empty !exists branch, leaving the
      -- zero value in place when the lookup fails.
      let pipeline := (cachePipeline c pKey).getD zeroPipeline
      match c.ciProvidersByID pipeline.providerID with
      | none => .error .noMatchingProvider
      | some _ =>
        match providerLog pipeline.providerID step with
        | .error e => .error e
        | .ok log => .ok (normalizeLog log)

/-- The non-recursive fields of `task`. -/
structure TaskData where
  key : TaskKey
  ref : GitReference
  number : String
  type_ : String
  state : State
  name : String
  provider : String
  pfx : String -- Go field `prefix`
  createdAt : NullTime
  startedAt : NullTime
  finishedAt : NullTime
  updatedAt : NullTime
  duration : NullDuration
  traversable : Bool
  url : NullString

/-- `task` (children are `[]*task` in Go). -/
inductive Task where
  | mk (data : TaskData) (children : List Task)

/-- The slot-filling loop at the top of `taskFromStep`: set the first
non-`Valid` entry of the id array; `none` models the `panic` when every slot
is already used. -/
def setFirstInvalid : List NullString → String → Option (List NullString)
  | [], _ => none
  | id :: rest, s =>
    if id.Valid then (setFirstInvalid rest s).map (fun rest' => id :: rest')
    else some (⟨true, s⟩ :: rest)

mutual

/-- `taskFromStep`; the Go `panic` on exceeding the nesting cap is modelled
as `Except.error`. -/
def taskFromStepE : Step → GitReference → TaskKey → String → String → Except String Task
  | .mk d cs, ref, key, provider, number =>
    match setFirstInvalid key.stepIDs d.ID with
    | none => .error "exceeded maximum nesting depth for type task"
    | some ids =>
      let key' : TaskKey := ⟨key.providerHost, ids⟩
      let type_ :=
        match d.type_ with
        | .StepPipeline => "P"
        | .StepStage => "S"
        | .StepJob => "J"
        | .StepTask => "T"
      match tasksFromSteps cs ref key' provider number with
      | .error e => .error e
      | .ok children =>
        .ok (.mk
          { key := key', ref := ref, number := number, type_ := type_,
            state := d.State, name := d.Name, provider := provider, pfx := "",
            createdAt := d.CreatedAt, startedAt := d.StartedAt,
            finishedAt := d.FinishedAt, updatedAt := ⟨true, d.UpdatedAt⟩,
            duration := d.Duration, traversable := false, url := d.WebURL }
          children)

/-- The loop of `taskFromStep` over the children of a step. -/
def tasksFromSteps : List Step → GitReference → TaskKey → String → String → Except String (List Task)
  | [], _, _, _, _ => .ok []
  | childStep :: rest, ref, key, provider, number =>
    match taskFromStepE childStep ref key provider number with
    | .error e => .error e
    | .ok t =>
      match tasksFromSteps rest ref key provider number with
      | .error e => .error e
      | .ok ts => .ok (t :: ts)

end

/-- Success of `strconv.Atoi`: an optional sign followed by at least one
digit (integer range errors are not modelled).  Computed on the character
list so that it evaluates inside the kernel. -/
def atoiOK (s : String) : Bool :=
  let digits :=
    match s.data with
    | c :: rest => if c = '+' ∨ c = '-' then rest else s.data
    | [] => []
  !digits.isEmpty && digits.all (fun c => 48 ≤ c.toNat && c.toNat ≤ 57)

/-- `taskFromPipeline` -/
def taskFromPipelineE (p : Pipeline) (providerByID : String → Option CIProvider) :
    Except String Task :=
  let key : TaskKey := ⟨p.providerHost, List.replicate maxStepIDs ⟨false, ""⟩⟩
  let providerName :=
    match providerByID p.providerID with
    | some provider => provider.name
    | none => "unknown"
  let number0 := if p.Number = "" then p.step.data.ID else p.Number
  let number := if atoiOK number0 then "#" ++ number0 else number0
  taskFromStepE p.step p.gitRef key providerName number

mutual

/-- Depth of a step tree (a root with no children has depth 1). -/
def stepDepth : Step → Nat
  | .mk _ cs => 1 + stepsDepth cs

/-- Maximum depth over a list of step trees. -/
def stepsDepth : List Step → Nat
  | [] => 0
  | c :: cs => max (stepDepth c) (stepsDepth cs)

end

/-! ## broadcastMonitorPipeline: error aggregation (C4) -/

/-- The errors a `monitorPipeline` worker can send on `errc` (only non-nil
errors are sent): the sentinel `ErrUnknownPipelineURL`, or anything else
(wrapped provider failures, cancellation). -/
inductive MonitorError where
  | ErrUnknownPipelineURL
  | otherMonitorError (msg : String)
deriving DecidableEq, Repr

/-- The `for e := range errc` aggregation loop of
`Cache.broadcastMonitorPipeline`, folded over the errors in arrival order;
`total` is `len(c.ciProvidersByID)`, `err` and `n` are the loop variables. -/
def pipelineAggLoop (total : Nat) :
    List MonitorError → Option MonitorError → Nat → Option MonitorError
  | [], err, _ => err
  | e :: rest, err, n =>
    if e = .ErrUnknownPipelineURL then
      if n + 1 < total then pipelineAggLoop total rest err (n + 1)
      else pipelineAggLoop total rest (if err = none then some e else err) (n + 1)
    else pipelineAggLoop total rest (if err = none then some e else err) n

/-- Result of `broadcastMonitorPipeline` as a function of the multiset of
errors received on `errc` (in arrival order). -/
def broadcastMonitorPipelineAgg (total : Nat) (es : List MonitorError) :
    Option MonitorError :=
  pipelineAggLoop total es none 0

/-! ## broadcastMonitorRefStatus: error aggregation (C5) -/

/-- Errors a `monitorRefStatuses` worker can return; each worker sends its
result on `errc` unconditionally, so a `nil` result is modelled as `none`. -/
inductive SourceError where
  | ErrUnknownRepositoryURL
  | ErrUnknownGitReference
  | otherSourceError (msg : String)
deriving DecidableEq, Repr

/-- The `for e := range errc` aggregation loop of
`Cache.broadcastMonitorRefStatus`; `total` is `len(c.sourceProviders)`,
`err`, `n` and `canceled` are the loop variables. -/
def refStatusAggLoop (total : Nat) :
    List (Option SourceError) → Option SourceError → Nat → Bool → Option SourceError
  | [], err, _, _ => err
  | e :: rest, err, n, canceled =>
    if canceled then refStatusAggLoop total rest err n canceled
    else
      let err' :=
        match e with
        | some .ErrUnknownRepositoryURL => if err = none then e else err
        | some .ErrUnknownGitReference =>
          if err = none ∨ err = some .ErrUnknownRepositoryURL then e else err
        | _ => e
      let n' :=
        match e with
        | some .ErrUnknownRepositoryURL => n + 1
        | some .ErrUnknownGitReference => n + 1
        | _ => total
      if total ≤ n' then refStatusAggLoop total rest e n' true
      else refStatusAggLoop total rest err' n' false

/-- Result of the aggregation phase of `broadcastMonitorRefStatus`:
`initErr` is the value of `err` left over from the `GitOriginURL` resolution
switch, `es` the worker results in arrival order. -/
def broadcastMonitorRefStatusAgg (total : Nat) (initErr : Option SourceError)
    (es : List (Option SourceError)) : Option SourceError :=
  refStatusAggLoop total es initErr 0 false

/-! ## Specification-side definitions (translated from the spec's words, for
comparison with the code-side definitions above) -/

/-- The precedence rank matching the actual code order
`unknown > running > pending > canceled > failed > passed > skipped > manual`
(the amended form of the order claimed in the spec). -/
def specStateRank : State → Nat
  | .Unknown => 7
  | .Running => 6
  | .Pending => 5
  | .Canceled => 4
  | .Failed => 3
  | .Passed => 2
  | .Skipped => 1
  | .Manual => 0

/-- Spec: a child marked `allow_failure` and in a failed/canceled state is
treated as passed before merging. -/
def effState (s : Step) : State :=
  if s.data.AllowFailure ∧ (s.data.State = .Failed ∨ s.data.State = .Canceled) then
    .Passed
  else s.data.State

/-- Spec: the aggregate state is the fold of the precedence merge over the
children's (allow-failure adjusted) states. -/
def aggStateSpec : List Step → State
  | [] => .Unknown
  | [s] => effState s
  | s :: rest => (effState s).merge (aggStateSpec rest)

/-- The timestamps of the non-null entries of a list. -/
def validTimes (ts : List NullTime) : List Int :=
  (ts.filter (fun t => t.Valid)).map (fun t => t.Time)

def intMinList : List Int → Int
  | [] => 0
  | [x] => x
  | x :: rest => min x (intMinList rest)

def intMaxList : List Int → Int
  | [] => 0
  | [x] => x
  | x :: rest => max x (intMaxList rest)

/-- Spec: `result` is the minimum of `ts` ignoring nulls — it is non-null
exactly when some entry is, and it then carries the least non-null time. -/
def isMinOfValid (result : NullTime) (ts : List NullTime) : Prop :=
  (result.Valid = true ↔ validTimes ts ≠ []) ∧
  (result.Valid = true → result.Time = intMinList (validTimes ts))

/-- Spec: `result` is the maximum of `ts` ignoring nulls. -/
def isMaxOfValid (result : NullTime) (ts : List NullTime) : Prop :=
  (result.Valid = true ↔ validTimes ts ≠ []) ∧
  (result.Valid = true → result.Time = intMaxList (validTimes ts))

/-- The binary fold that the `Aggregate` recursion applies to timestamps
(min form). -/
def minNullFold : List NullTime → NullTime
  | [] => ⟨false, 0⟩
  | [x] => x
  | x :: rest => MinNullTime [x, minNullFold rest]

/-- The binary fold that the `Aggregate` recursion applies to timestamps
(max form). -/
def maxNullFold : List NullTime → NullTime
  | [] => ⟨false, 0⟩
  | [x] => x
  | x :: rest => MaxNullTime [x, maxNullFold rest]

/-- Branch list of the commit stored at `ref` (empty when none is stored). -/
def storedBranches (c : Cache) (ref : String) : List String :=
  match c.commitsByRef ref with
  | some commit => commit.Branches
  | none => []

/-- Tag list of the commit stored at `ref` (empty when none is stored). -/
def storedTags (c : Cache) (ref : String) : List String :=
  match c.commitsByRef ref with
  | some commit => commit.Tags
  | none => []

/-- Number of unused (non-`Valid`) slots of a step-id array. -/
def countInvalid (ids : List NullString) : Nat :=
  (ids.filter (fun id => !id.Valid)).length

/-- Spec: the string ends in a single newline character (a trailing newline
that is not itself preceded by a newline). -/
def endsInSingleNewline (s : String) : Bool :=
  hasSuffix s "\n" && !(hasSuffix s "\n\n")

/-! ## Concrete inputs used by witnesses and counterexamples -/

def emptyCache : Cache :=
  { heap := [], ciProvidersByID := fun _ => none, commitsByRef := fun _ => none,
    pipelineByKey := fun _ => none, pipelineByRef := fun _ => none }

/-- A finished, passed pipeline used to exercise `savePipeline`. -/
def passedPipeline : Pipeline :=
  { Number := "1", providerID := "travis", providerHost := "travis-ci.org",
    gitRef := ⟨"deadbeef", "master", false⟩,
    step := .mk { zeroStepData with ID := "1", State := .Passed, UpdatedAt := 5 } [] }

/-- A step marked `AllowFailure` that failed: `Aggregate` of the singleton
list returns it unchanged, spoiling the allow-failure rewrite claimed for
every non-empty list. -/
def allowFailStep : Step :=
  .mk { zeroStepData with ID := "j1", AllowFailure := true, State := .Failed } []

/-- Two concrete children with distinct timestamps (for the C2 witness). -/
def witnessDataA : StepData :=
  { zeroStepData with
    ID := "a", State := .Passed,
    CreatedAt := ⟨true, 3⟩, StartedAt := ⟨true, 4⟩, FinishedAt := ⟨true, 9⟩,
    UpdatedAt := 10 }

def witnessStepA : Step := .mk witnessDataA []

def witnessDataB : StepData :=
  { zeroStepData with
    ID := "b", State := .Failed,
    CreatedAt := ⟨true, 2⟩, StartedAt := ⟨true, 5⟩, FinishedAt := ⟨true, 7⟩,
    UpdatedAt := 11 }

def witnessStepB : Step := .mk witnessDataB []

/-- A stored commit and an incoming commit with a different sha (C6/C10). -/
def previousCommitEx : Commit :=
  { Sha := "aaa", Author := "alice", Date := 1, Message := "first",
    Branches := ["master"], Tags := ["v1"], Head := "master", Statuses := ["u1"] }

def incomingCommitEx : Commit :=
  { Sha := "bbb", Author := "bob", Date := 2, Message := "second",
    Branches := ["dev", "master"], Tags := [], Head := "dev", Statuses := ["u2"] }

def commitCacheEx : Cache :=
  { heap := [passedPipeline],
    ciProvidersByID := fun _ => none,
    commitsByRef := fun ref => if ref = "r" then some previousCommitEx else none,
    pipelineByKey := fun k => if k = passedPipeline.key then some 0 else none,
    pipelineByRef := fun ref =>
      if ref = "r" then some (fun k => if k = passedPipeline.key then some 0 else none)
      else none }

/-- A linear chain of steps of the given extra depth (C8 witness input). -/
def chainStep : Nat → Step
  | 0 => .mk { zeroStepData with ID := "c0" } []
  | n + 1 => .mk { zeroStepData with ID := "c" } [chainStep n]

/-- A pipeline whose step tree is 11 levels deep. -/
def chainPipeline : Pipeline :=
  { Number := "7", providerID := "p", providerHost := "h",
    gitRef := ⟨"sha", "master", false⟩, step := chainStep 10 }

/-- A pipeline whose root step carries a cached log that already ends in two
newline characters (C9). -/
def logStep : Step :=
  .mk { zeroStepData with ID := "42", Log := ⟨"k", ⟨true, "ab\n\n"⟩⟩ } []

def logPipeline : Pipeline :=
  ⟨"42", "trav", "h", ⟨"s", "master", false⟩, logStep⟩

def logCache : Cache :=
  { heap := [logPipeline],
    ciProvidersByID := fun _ => none,
    commitsByRef := fun _ => none,
    pipelineByKey := fun k => if k = logPipeline.key then some 0 else none,
    pipelineByRef := fun _ => none }

def logTaskKey : TaskKey :=
  ⟨"h", ⟨true, "42"⟩ :: List.replicate 9 ⟨false, ""⟩⟩

/-- A provider log oracle that never succeeds (the cached-content path never
consults it). -/
def failingOracle : String → Step → Except LogError String :=
  fun _ _ => .error .noMatchingProvider

/-! ## Helper lemmas -/

/-- `appendMissing` appends exactly the incoming entries absent from the
snapshot, in order. -/
theorem appendMissing_eq (old incoming : List String) :
    appendMissing old incoming =
      old ++ incoming.filter (fun b => decide (b ∉ old)) := by
  have general :
      ∀ (inc : List String) (acc : List String),
        inc.foldl (fun acc b => if b ∈ old then acc else acc ++ [b]) acc =
          acc ++ inc.filter (fun b => decide (b ∉ old)) := by
    intro inc
    induction inc with
    | nil => intro acc; simp
    | cons b rest ih =>
      intro acc
      by_cases hb : b ∈ old
      · simp [List.foldl_cons, hb, ih]
      · simp [List.foldl_cons, hb, ih]
  exact general incoming old

/-- The commit map of a cache is unchanged by dropping a ref's pipeline
index. -/
theorem commitsByRef_of_refDrop (c : Cache) (p : Prop) [Decidable p] (f : String → Option (PipelineKey → Option Nat)) :
    (if p then { c with pipelineByRef := f } else c).commitsByRef = c.commitsByRef := by
  split <;> rfl

/-- `storedBranches` after a save: the stored list grows by the incoming
branches that were absent. -/
theorem storedBranches_save (c : Cache) (ref : String) (commit : Commit) :
    storedBranches (saveCommit c ref commit) ref =
      storedBranches c ref ++
        commit.Branches.filter (fun b => decide (b ∉ storedBranches c ref)) := by
  cases h : c.commitsByRef ref with
  | none =>
    simp [saveCommit, h, storedBranches, mapUpdate]
  | some prev =>
    simp [saveCommit, h, storedBranches, mapUpdate, commitsByRef_of_refDrop,
      appendMissing_eq]

/-- `storedTags` after a save. -/
theorem storedTags_save (c : Cache) (ref : String) (commit : Commit) :
    storedTags (saveCommit c ref commit) ref =
      storedTags c ref ++
        commit.Tags.filter (fun t => decide (t ∉ storedTags c ref)) := by
  cases h : c.commitsByRef ref with
  | none =>
    simp [saveCommit, h, storedTags, mapUpdate]
  | some prev =>
    simp [saveCommit, h, storedTags, mapUpdate, commitsByRef_of_refDrop,
      appendMissing_eq]

/-- Branch lists can only grow across any sequence of saves. -/
theorem storedBranches_fold (ref : String) (commits : List Commit) :
    ∀ c : Cache,
      storedBranches c ref <+:
        storedBranches (commits.foldl (fun acc cm => saveCommit acc ref cm) c) ref := by
  induction commits with
  | nil => intro c; simp
  | cons cm rest ih =>
    intro c
    refine List.IsPrefix.trans ?_ (ih (saveCommit c ref cm))
    rw [storedBranches_save]
    exact List.prefix_append _ _

/-- Tag lists can only grow across any sequence of saves. -/
theorem storedTags_fold (ref : String) (commits : List Commit) :
    ∀ c : Cache,
      storedTags c ref <+:
        storedTags (commits.foldl (fun acc cm => saveCommit acc ref cm) c) ref := by
  induction commits with
  | nil => intro c; simp
  | cons cm rest ih =>
    intro c
    refine List.IsPrefix.trans ?_ (ih (saveCommit c ref cm))
    rw [storedTags_save]
    exact List.prefix_append _ _

theorem mapUpdate_same {K V : Type} [DecidableEq K] (m : K → Option V) (k : K)
    (v : V) : mapUpdate m k v k = some v := by
  simp [mapUpdate]

theorem getD_append_length {α : Type} (l : List α) (a d : α) :
    (l ++ [a]).getD l.length d = a := by
  simp [List.getD]

/-- Once `err` is set, the pipeline aggregation loop never changes it. -/
theorem pipelineAggLoop_err_stable (total : Nat) :
    ∀ (es : List MonitorError) (err : Option MonitorError) (n : Nat),
      err ≠ none → pipelineAggLoop total es err n = err := by
  intro es
  induction es with
  | nil => intro err n _; rfl
  | cons e rest ih =>
    intro err n h
    have hkeep : (if err = none then some e else err) = err := by
      cases err with
      | none => exact absurd rfl h
      | some x => rfl
    simp only [pipelineAggLoop]
    rw [hkeep]
    split_ifs with he hn <;> exact ih _ _ h

/-- While fewer than `total` providers have reported
`ErrUnknownPipelineURL`, the loop leaves `err` untouched. -/
theorem pipelineAggLoop_short (total : Nat) :
    ∀ (es : List MonitorError) (err : Option MonitorError) (n : Nat),
      (∀ e ∈ es, e = .ErrUnknownPipelineURL) → n + es.length < total →
      pipelineAggLoop total es err n = err := by
  intro es
  induction es with
  | nil => intro err n _ _; rfl
  | cons e rest ih =>
    intro err n hall hlen
    have he : e = .ErrUnknownPipelineURL := hall e (by simp)
    have hn : n + 1 < total := by
      simp only [List.length_cons] at hlen; omega
    simp only [pipelineAggLoop]
    rw [if_pos he, if_pos hn]
    refine ih err (n + 1) (fun x hx => hall x (by simp [hx])) ?_
    simp only [List.length_cons] at hlen; omega

/-- When every result is `ErrUnknownPipelineURL` and the counter reaches
`total` exactly at the end of the list, the loop reports the sentinel. -/
theorem pipelineAggLoop_exact (total : Nat) :
    ∀ (es : List MonitorError) (n : Nat), es ≠ [] →
      (∀ e ∈ es, e = .ErrUnknownPipelineURL) → n + es.length = total →
      pipelineAggLoop total es none n = some .ErrUnknownPipelineURL := by
  intro es
  induction es with
  | nil => intro n h; exact absurd rfl h
  | cons e rest ih =>
    intro n _ hall hlen
    have he : e = .ErrUnknownPipelineURL := hall e (by simp)
    cases rest with
    | nil =>
      have hn : ¬ (n + 1 < total) := by
        simp only [List.length_cons, List.length_nil] at hlen; omega
      simp only [pipelineAggLoop]
      rw [if_pos he, if_neg hn]
      simp [he, pipelineAggLoop]
    | cons f rest' =>
      have hn : n + 1 < total := by
        simp only [List.length_cons] at hlen; omega
      simp only [pipelineAggLoop]
      rw [if_pos he, if_pos hn]
      refine ih (n + 1) (by simp) (fun x hx => hall x (by simp [hx])) ?_
      simp only [List.length_cons] at hlen ⊢; omega

/-- If the loop, started with `err = nil` and `n` sentinel reports so far,
ends up returning the sentinel, then every remaining result was the sentinel
and the counter reached exactly `total`. -/
theorem pipelineAggLoop_unknown_inv (total : Nat) :
    ∀ (es : List MonitorError) (n : Nat), n + es.length ≤ total →
      pipelineAggLoop total es none n = some .ErrUnknownPipelineURL →
      (∀ e ∈ es, e = .ErrUnknownPipelineURL) ∧ n + es.length = total := by
  intro es
  induction es with
  | nil =>
    intro n _ h
    simp [pipelineAggLoop] at h
  | cons e rest ih =>
    intro n hlen hres
    by_cases he : e = .ErrUnknownPipelineURL
    · by_cases hn : n + 1 < total
      · simp only [pipelineAggLoop] at hres
        rw [if_pos he, if_pos hn] at hres
        obtain ⟨h1, h2⟩ :=
          ih (n + 1) (by simp only [List.length_cons] at hlen; omega) hres
        constructor
        · intro x hx
          rcases List.mem_cons.1 hx with hx | hx
          · exact hx ▸ he
          · exact h1 x hx
        · simp only [List.length_cons]; omega
      · have hrest : rest.length = 0 ∧ n + 1 = total := by
          simp only [List.length_cons] at hlen; omega
        constructor
        · intro x hx
          rcases List.mem_cons.1 hx with hx | hx
          · exact hx ▸ he
          · rw [List.eq_nil_of_length_eq_zero hrest.1] at hx
            exact absurd hx (List.not_mem_nil x)
        · simp only [List.length_cons]; omega
    · simp only [pipelineAggLoop] at hres
      rw [if_neg he] at hres
      simp only [if_true] at hres
      rw [pipelineAggLoop_err_stable total rest (some e) n (by simp)] at hres
      exact absurd (Option.some_injective _ hres) he

/-! ## Claim theorems -/

/-- C3 (counterexample): merging `unknown` with `running` yields `unknown`,
not `running`, so `unknown` does not rank lowest — the code gives it the
highest precedence (80), contradicting the claimed order
`running > pending > canceled > failed > passed > skipped > manual > unknown`. -/
theorem C3_counterexample :
    State.merge State.Unknown State.Running = State.Unknown ∧
      State.Unknown ≠ State.Running := by
  exact ⟨rfl, by decide⟩

/-- C3 (amended): the precedence order implemented by `statePrecedence` is
`unknown > running > pending > canceled > failed > passed > skipped > manual`;
for every pair of states, merging yields whichever ranks higher in that
order (in particular `unknown` wins every merge). -/
theorem C3_state_merge_order :
    (∀ s t : State,
      State.merge s t = if specStateRank t ≤ specStateRank s then s else t)
    ∧ (∀ t : State, State.merge State.Unknown t = State.Unknown) := by
  constructor
  · intro s t
    cases s <;> cases t <;> rfl
  · intro t
    cases t <;> rfl

/-- C1: `SavePipeline` returns `ErrObsoleteBuild` iff an entry for the
pipeline's key exists, the new pipeline is not active, its `updated` is not
strictly after the stored one's, and the ref index already points at the
stored entry; in every other such non-active, non-newer case the stored
pipeline is retained unchanged, the ref index is pointed at it and the call
succeeds; otherwise the new pipeline is installed by key and in the ref
index and the call succeeds. -/
theorem C1_savePipeline_characterization (c : Cache) (ref : String) (p : Pipeline) :
    ((savePipeline c ref p).2 = some CacheError.ErrObsoleteBuild ↔
      ∃ addr, c.pipelineByKey p.key = some addr ∧
        p.step.data.State.IsActive = false ∧
        ¬ (heapGet c addr).step.data.UpdatedAt < p.step.data.UpdatedAt ∧
        refIndex c ref p.key = some addr)
    ∧ (∀ addr, c.pipelineByKey p.key = some addr →
        p.step.data.State.IsActive = false →
        ¬ (heapGet c addr).step.data.UpdatedAt < p.step.data.UpdatedAt →
        (savePipeline c ref p).1.heap = c.heap ∧
        (savePipeline c ref p).1.pipelineByKey = c.pipelineByKey ∧
        refIndex (savePipeline c ref p).1 ref p.key = some addr ∧
        ((savePipeline c ref p).2 = none ↔ refIndex c ref p.key ≠ some addr))
    ∧ ((c.pipelineByKey p.key = none ∨ p.step.data.State.IsActive = true ∨
        (∀ addr, c.pipelineByKey p.key = some addr →
          (heapGet c addr).step.data.UpdatedAt < p.step.data.UpdatedAt)) →
      ∃ addr, (savePipeline c ref p).1.pipelineByKey p.key = some addr ∧
        heapGet (savePipeline c ref p).1 addr = p ∧
        refIndex (savePipeline c ref p).1 ref p.key = some addr ∧
        (savePipeline c ref p).2 = none) := by
  cases hk : c.pipelineByKey p.key with
  | none =>
    have hres : savePipeline c ref p = savePipelineInstall c ref p := by
      simp only [savePipeline, hk]
    refine ⟨?_, ?_, ?_⟩
    · rw [hres]
      constructor
      · intro hcon
        simp [savePipelineInstall] at hcon
      · rintro ⟨addr, haddr, -⟩
        exact Option.noConfusion haddr
    · intro addr haddr
      exact Option.noConfusion haddr
    · intro _
      rw [hres]
      refine ⟨c.heap.length, ?_, ?_, ?_, ?_⟩
      · simp [savePipelineInstall, mapUpdate_same]
      · simp only [savePipelineInstall]
        exact getD_append_length c.heap p zeroPipeline
      · simp [savePipelineInstall, refIndex, mapUpdate_same, mapUpdate]
      · simp [savePipelineInstall]
  | some addr =>
    by_cases hcond : ¬ p.step.data.State.IsActive ∧
        ¬ (heapGet c addr).step.data.UpdatedAt < p.step.data.UpdatedAt
    · have hres : savePipeline c ref p =
          (let refMap := refIndex c ref
           let c1 : Cache := { c with pipelineByRef := mapUpdate c.pipelineByRef ref refMap }
           if refMap p.key = some addr then
             (c1, some CacheError.ErrObsoleteBuild)
           else
             ({ c1 with
                 pipelineByRef :=
                   mapUpdate c1.pipelineByRef ref (mapUpdate refMap p.key addr) },
              none)) := by
        simp only [savePipeline, hk]
        rw [if_pos hcond]
      by_cases hpoint : refIndex c ref p.key = some addr
      · have h2 : (savePipeline c ref p).2 = some CacheError.ErrObsoleteBuild := by
          rw [hres]; simp only [if_pos hpoint]
        have hheap : (savePipeline c ref p).1.heap = c.heap := by
          rw [hres]; simp only [if_pos hpoint]
        have hkey : (savePipeline c ref p).1.pipelineByKey = c.pipelineByKey := by
          rw [hres]; simp only [if_pos hpoint]
        have hri : refIndex (savePipeline c ref p).1 ref p.key = some addr := by
          rw [hres]
          simp only [if_pos hpoint]
          simpa [refIndex, mapUpdate] using hpoint
        refine ⟨?_, ?_, ?_⟩
        · rw [h2]
          constructor
          · intro _
            exact ⟨addr, rfl, by simpa using hcond.1, hcond.2, hpoint⟩
          · intro _
            rfl
        · intro addr' haddr'
          injection haddr' with heq
          subst heq
          intro _ _
          refine ⟨hheap, hkey, hri, ?_⟩
          rw [h2]
          constructor
          · intro hcon
            exact Option.noConfusion hcon
          · intro hcon
            exact absurd hpoint hcon
        · intro hdisj
          rcases hdisj with h | h | h
          · exact Option.noConfusion h
          · have := hcond.1; simp [h] at this
          · exact absurd (h addr rfl) hcond.2
      · have h2 : (savePipeline c ref p).2 = none := by
          rw [hres]; simp only [if_neg hpoint]
        have hheap : (savePipeline c ref p).1.heap = c.heap := by
          rw [hres]; simp only [if_neg hpoint]
        have hkey : (savePipeline c ref p).1.pipelineByKey = c.pipelineByKey := by
          rw [hres]; simp only [if_neg hpoint]
        have hri : refIndex (savePipeline c ref p).1 ref p.key = some addr := by
          rw [hres]
          simp only [if_neg hpoint]
          simp [refIndex, mapUpdate]
        refine ⟨?_, ?_, ?_⟩
        · rw [h2]
          constructor
          · intro hcon
            exact Option.noConfusion hcon
          · rintro ⟨addr', haddr', -, -, hpt⟩
            injection haddr' with heq
            subst heq
            exact absurd hpt hpoint
        · intro addr' haddr'
          injection haddr' with heq
          subst heq
          intro _ _
          refine ⟨hheap, hkey, hri, ?_⟩
          rw [h2]
          simp only [true_iff]
          exact fun hcon => absurd hcon hpoint
        · intro hdisj
          rcases hdisj with h | h | h
          · exact Option.noConfusion h
          · have := hcond.1; simp [h] at this
          · exact absurd (h addr rfl) hcond.2
    · have hres : savePipeline c ref p = savePipelineInstall c ref p := by
        simp only [savePipeline, hk]
        rw [if_neg hcond]
      refine ⟨?_, ?_, ?_⟩
      · rw [hres]
        constructor
        · intro hcon
          simp [savePipelineInstall] at hcon
        · rintro ⟨addr', haddr', hact, hupd, -⟩
          injection haddr' with heq
          subst heq
          exact absurd ⟨by simp [hact], hupd⟩ hcond
      · intro addr' haddr' hact hupd
        injection haddr' with heq
        subst heq
        exact absurd ⟨by simp [hact], hupd⟩ hcond
      · intro _
        rw [hres]
        refine ⟨c.heap.length, ?_, ?_, ?_, ?_⟩
        · simp [savePipelineInstall, mapUpdate_same]
        · simp only [savePipelineInstall]
          exact getD_append_length c.heap p zeroPipeline
        · simp [savePipelineInstall, refIndex, mapUpdate_same, mapUpdate]
        · simp [savePipelineInstall]

/-- C1 (witness): saving a pipeline into the empty cache installs it by key
and in the ref index and succeeds. -/
theorem C1_witness :
    ∃ addr,
      (savePipeline emptyCache "r" passedPipeline).1.pipelineByKey
          passedPipeline.key = some addr ∧
      heapGet (savePipeline emptyCache "r" passedPipeline).1 addr = passedPipeline ∧
      refIndex (savePipeline emptyCache "r" passedPipeline).1 "r"
          passedPipeline.key = some addr ∧
      (savePipeline emptyCache "r" passedPipeline).2 = none :=
  (C1_savePipeline_characterization emptyCache "r" passedPipeline).2.2 (Or.inl rfl)

/-- C4: with at least one CI provider, each of the `total` providers sending
at most one error, the broadcast aggregation returns `ErrUnknownPipelineURL`
iff every provider returned `ErrUnknownPipelineURL`; and when at least one
provider adopted the URL (sent no error) while the others returned only
`ErrUnknownPipelineURL`, the broadcast succeeds (`nil` error). -/
theorem C4_broadcastMonitorPipeline_unknown (total : Nat) (es : List MonitorError)
    (htotal : 0 < total) (hlen : es.length ≤ total) :
    (broadcastMonitorPipelineAgg total es = some .ErrUnknownPipelineURL ↔
      es = List.replicate total .ErrUnknownPipelineURL)
    ∧ ((∀ e ∈ es, e = .ErrUnknownPipelineURL) → es.length < total →
        broadcastMonitorPipelineAgg total es = none) := by
  constructor
  · constructor
    · intro h
      obtain ⟨hall, hexact⟩ :=
        pipelineAggLoop_unknown_inv total es 0 (by omega) h
      refine List.eq_replicate_iff.2 ⟨by omega, hall⟩
    · intro h
      subst h
      refine pipelineAggLoop_exact total _ 0 ?_ ?_ ?_
      · intro hcon
        have := congrArg List.length hcon
        simp only [List.length_replicate, List.length_nil] at this
        omega
      · intro e he
        exact List.eq_of_mem_replicate he
      · simp
  · intro hall hlt
    exact pipelineAggLoop_short total es none 0 hall (by omega)

/-- C4 (witness): with two providers, two `ErrUnknownPipelineURL` results
aggregate to `ErrUnknownPipelineURL`, while a single one (the other provider
adopted the URL) aggregates to success. -/
theorem C4_witness :
    broadcastMonitorPipelineAgg 2
        [MonitorError.ErrUnknownPipelineURL, MonitorError.ErrUnknownPipelineURL] =
      some MonitorError.ErrUnknownPipelineURL ∧
    broadcastMonitorPipelineAgg 2 [MonitorError.ErrUnknownPipelineURL] = none := by
  constructor
  · exact (C4_broadcastMonitorPipeline_unknown 2
      [MonitorError.ErrUnknownPipelineURL, MonitorError.ErrUnknownPipelineURL]
      (by decide) (by decide)).1.mpr rfl
  · exact (C4_broadcastMonitorPipeline_unknown 2 [MonitorError.ErrUnknownPipelineURL]
      (by decide) (by decide)).2 (by decide) (by decide)

/-- C5 (code evaluation at the failing input): with two source providers,
initial error `nil`, and results arriving as `ErrUnknownGitReference` then
`ErrUnknownRepositoryURL`, the aggregation loop returns
`ErrUnknownRepositoryURL` — the final `err = e` assignment on cancellation
overwrites the dominance choice, contradicting the code's own comment that
`ErrUnknownGitReference` must be returned over `ErrUnknownRepositoryURL`. -/
theorem C5_refStatus_last_error_wins :
    broadcastMonitorRefStatusAgg 2 none
        [some SourceError.ErrUnknownGitReference,
         some SourceError.ErrUnknownRepositoryURL] =
      some SourceError.ErrUnknownRepositoryURL := rfl

/-- C6: saving a commit whose sha differs from the one stored for `ref`
empties (deletes) the per-ref pipeline index, while the by-key pipeline map
and the stored pipelines themselves are untouched. -/
theorem C6_saveCommit_drops_ref_index (c : Cache) (ref : String)
    (commit prev : Commit) (hprev : c.commitsByRef ref = some prev)
    (hsha : prev.Sha ≠ commit.Sha) :
    (saveCommit c ref commit).pipelineByRef ref = none ∧
    (saveCommit c ref commit).pipelineByKey = c.pipelineByKey ∧
    (saveCommit c ref commit).heap = c.heap := by
  simp [saveCommit, hprev, hsha, mapErase]

/-- C6 (witness): on a concrete cache holding commit "aaa" at ref "r" and a
populated pipeline index, saving a commit with sha "bbb" empties the index
and keeps the by-key map and heap. -/
theorem C6_witness :
    (saveCommit commitCacheEx "r" incomingCommitEx).pipelineByRef "r" = none ∧
    (saveCommit commitCacheEx "r" incomingCommitEx).pipelineByKey =
      commitCacheEx.pipelineByKey ∧
    (saveCommit commitCacheEx "r" incomingCommitEx).heap = commitCacheEx.heap :=
  C6_saveCommit_drops_ref_index commitCacheEx "r" incomingCommitEx
    previousCommitEx rfl (by decide)

/-- C10: when a commit is already stored for `ref`, a save leaves every
field of the stored commit other than `Branches` and `Tags` unchanged —
the incoming sha, author, date, message, head and statuses are discarded
(no hypothesis restricts the shas, so this holds even when they differ). -/
theorem C10_saveCommit_frame (c : Cache) (ref : String) (commit prev : Commit)
    (hprev : c.commitsByRef ref = some prev) :
    ∃ stored,
      (saveCommit c ref commit).commitsByRef ref = some stored ∧
      stored.Sha = prev.Sha ∧ stored.Author = prev.Author ∧
      stored.Date = prev.Date ∧ stored.Message = prev.Message ∧
      stored.Head = prev.Head ∧ stored.Statuses = prev.Statuses := by
  refine ⟨{ prev with
            Branches := appendMissing prev.Branches commit.Branches,
            Tags := appendMissing prev.Tags commit.Tags },
          ?_, rfl, rfl, rfl, rfl, rfl, rfl⟩
  simp [saveCommit, hprev, mapUpdate, commitsByRef_of_refDrop]

/-- C10 (witness): saving commit "bbb" over stored commit "aaa" keeps sha,
author, date, message, head and statuses of the stored commit. -/
theorem C10_witness :
    ∃ stored,
      (saveCommit commitCacheEx "r" incomingCommitEx).commitsByRef "r" = some stored ∧
      stored.Sha = previousCommitEx.Sha ∧ stored.Author = previousCommitEx.Author ∧
      stored.Date = previousCommitEx.Date ∧ stored.Message = previousCommitEx.Message ∧
      stored.Head = previousCommitEx.Head ∧ stored.Statuses = previousCommitEx.Statuses :=
  C10_saveCommit_frame commitCacheEx "r" incomingCommitEx previousCommitEx rfl

/-- C7: across saves the stored branch and tag lists only grow: each save
appends exactly the incoming names not already present (membership decided
by string equality), never removing or reordering existing entries, and any
sequence of saves leaves the earlier list a prefix of the later one. -/
theorem C7_saveCommit_monotone (c : Cache) (ref : String) (commit : Commit) :
    (storedBranches (saveCommit c ref commit) ref =
      storedBranches c ref ++
        commit.Branches.filter (fun b => decide (b ∉ storedBranches c ref)))
    ∧ (storedTags (saveCommit c ref commit) ref =
      storedTags c ref ++
        commit.Tags.filter (fun t => decide (t ∉ storedTags c ref)))
    ∧ (∀ commits : List Commit,
        storedBranches c ref <+:
          storedBranches (commits.foldl (fun acc cm => saveCommit acc ref cm) c) ref)
    ∧ (∀ commits : List Commit,
        storedTags c ref <+:
          storedTags (commits.foldl (fun acc cm => saveCommit acc ref cm) c) ref) :=
  ⟨storedBranches_save c ref commit, storedTags_save c ref commit,
   fun commits => storedBranches_fold ref commits c,
   fun commits => storedTags_fold ref commits c⟩

/-- Appending a newline produces a string ending in a newline. -/
theorem hasSuffix_append_newline (log : String) :
    hasSuffix (log ++ "\n") "\n" = true := by
  unfold hasSuffix
  rw [List.isSuffixOf_iff_suffix]
  show "\n".data <:+ log.data ++ "\n".data
  exact List.suffix_append _ _

/-- The log normalization always yields a string ending in a newline. -/
theorem hasSuffix_normalizeLog (log : String) :
    hasSuffix (normalizeLog log) "\n" = true := by
  unfold normalizeLog
  by_cases h : hasSuffix log "\n" = true
  · rw [if_pos h]; exact h
  · rw [if_neg h]; exact hasSuffix_append_newline log

/-- Every successful `cacheLog` result is a normalized log. -/
theorem cacheLog_ok_normalized (c : Cache)
    (providerLog : String → Step → Except LogError String) (key : TaskKey)
    (s : String) (h : cacheLog c providerLog key = Except.ok s) :
    ∃ log, s = normalizeLog log := by
  unfold cacheLog at h
  dsimp only at h
  split at h
  · simp at h
  · split at h
    · simp only [Except.ok.injEq] at h
      exact ⟨_, h.symm⟩
    · split at h
      · simp at h
      · split at h
        · simp at h
        · simp only [Except.ok.injEq] at h
          exact ⟨_, h.symm⟩

/-- C9 (counterexample): a successful `Log` call can return a string ending
in two newline characters: cached content is only padded with a newline when
it lacks one, never collapsed, so "ends in a single newline" fails. -/
theorem C9_counterexample :
    cacheLog logCache failingOracle logTaskKey = Except.ok "ab\n\n" ∧
      endsInSingleNewline "ab\n\n" = false :=
  ⟨rfl, by decide⟩

/-- C9 (amended): every successful `Cache.Log` call — whether the content
came from the step's cached log or from the owning CI provider — returns a
string ending in at least one newline character (one is appended exactly
when the content lacks a trailing newline). -/
theorem C9_log_trailing_newline (c : Cache)
    (providerLog : String → Step → Except LogError String) (key : TaskKey)
    (s : String) (h : cacheLog c providerLog key = Except.ok s) :
    hasSuffix s "\n" = true := by
  obtain ⟨log, rfl⟩ := cacheLog_ok_normalized c providerLog key s h
  exact hasSuffix_normalizeLog log

/-- C9 (witness): the concrete successful call on the cached log "ab\n\n"
returns a string ending in a newline. -/
theorem C9_witness : hasSuffix "ab\n\n" "\n" = true :=
  C9_log_trailing_newline logCache failingOracle logTaskKey "ab\n\n" rfl

/-! ## Aggregate: helper lemmas (C2) -/

/-- The allow-failure rewrite changes only the state (to the spec's
effective state) and leaves every timestamp unchanged. -/
theorem fixAllowFailure_data (s : Step) :
    (fixAllowFailure s).data.State = effState s ∧
    (fixAllowFailure s).data.CreatedAt = s.data.CreatedAt ∧
    (fixAllowFailure s).data.StartedAt = s.data.StartedAt ∧
    (fixAllowFailure s).data.FinishedAt = s.data.FinishedAt ∧
    (fixAllowFailure s).data.UpdatedAt = s.data.UpdatedAt := by
  unfold fixAllowFailure effState
  split_ifs with h1 h2 <;> cases s <;> simp [Step.data] <;> tauto

/-- A step not marked `AllowFailure` passes through the rewrite unchanged. -/
theorem fixAllowFailure_id (s : Step) (h : s.data.AllowFailure = false) :
    fixAllowFailure s = s := by
  unfold fixAllowFailure
  have hcond : ¬ (s.data.AllowFailure = true ∧
      (s.data.State = .Canceled ∨ s.data.State = .Failed)) := by
    simp [h]
  rw [if_neg hcond]

theorem Aggregate_state_rec (s t : Step) (rest : List Step) :
    (Aggregate (s :: t :: rest)).data.State =
      ((fixAllowFailure s).data.State).merge
        ((fixAllowFailure (Aggregate (t :: rest))).data.State) := rfl

theorem Aggregate_createdAt_rec (s t : Step) (rest : List Step) :
    (Aggregate (s :: t :: rest)).data.CreatedAt =
      MinNullTime [(fixAllowFailure s).data.CreatedAt,
        (fixAllowFailure (Aggregate (t :: rest))).data.CreatedAt] := rfl

theorem Aggregate_startedAt_rec (s t : Step) (rest : List Step) :
    (Aggregate (s :: t :: rest)).data.StartedAt =
      MinNullTime [(fixAllowFailure s).data.StartedAt,
        (fixAllowFailure (Aggregate (t :: rest))).data.StartedAt] := rfl

theorem Aggregate_finishedAt_rec (s t : Step) (rest : List Step) :
    (Aggregate (s :: t :: rest)).data.FinishedAt =
      MaxNullTime [(fixAllowFailure s).data.FinishedAt,
        (fixAllowFailure (Aggregate (t :: rest))).data.FinishedAt] := rfl

theorem Aggregate_updatedAt_rec (s t : Step) (rest : List Step) :
    (Aggregate (s :: t :: rest)).data.UpdatedAt =
      (if (fixAllowFailure s).data.UpdatedAt <
          (fixAllowFailure (Aggregate (t :: rest))).data.UpdatedAt then
        (fixAllowFailure (Aggregate (t :: rest))).data.UpdatedAt
      else (fixAllowFailure s).data.UpdatedAt) := rfl

theorem Aggregate_duration_rec (s t : Step) (rest : List Step) :
    (Aggregate (s :: t :: rest)).data.Duration =
      NullSub (Aggregate (s :: t :: rest)).data.FinishedAt
        (Aggregate (s :: t :: rest)).data.StartedAt := rfl

theorem Aggregate_allowFailure_false (s t : Step) (rest : List Step) :
    (Aggregate (s :: t :: rest)).data.AllowFailure = false := rfl

theorem if_lt_max (a b : Int) : (if a < b then b else a) = max a b := by
  rcases le_or_lt b a with h | h
  · rw [if_neg (not_lt.mpr h), max_eq_left h]
  · rw [if_pos h, max_eq_right h.le]

theorem validTimes_cons (x : NullTime) (ts : List NullTime) :
    validTimes (x :: ts) =
      if x.Valid = true then x.Time :: validTimes ts else validTimes ts := by
  by_cases h : x.Valid = true <;> simp [validTimes, List.filter_cons, h]

theorem intMinList_cons (a : Int) (l : List Int) (h : l ≠ []) :
    intMinList (a :: l) = min a (intMinList l) := by
  cases l with
  | nil => exact absurd rfl h
  | cons b l' => rfl

theorem intMaxList_cons (a : Int) (l : List Int) (h : l ≠ []) :
    intMaxList (a :: l) = max a (intMaxList l) := by
  cases l with
  | nil => exact absurd rfl h
  | cons b l' => rfl

theorem MinNullTime_pair (x y : NullTime) :
    MinNullTime [x, y] =
      if x.Valid = true then
        (if y.Valid = true ∧ y.Time < x.Time then y else x)
      else y := by
  simp [MinNullTime]

theorem MaxNullTime_pair (x y : NullTime) :
    MaxNullTime [x, y] =
      if x.Valid = true then
        (if y.Valid = true ∧ x.Time < y.Time then y else x)
      else y := by
  simp [MaxNullTime]

/-- The binary min fold is the minimum of the non-null entries. -/
theorem minNullFold_spec :
    ∀ ts : List NullTime, ts ≠ [] → isMinOfValid (minNullFold ts) ts := by
  intro ts
  induction ts with
  | nil => intro h; exact absurd rfl h
  | cons x rest ih =>
    intro _
    cases rest with
    | nil =>
      constructor
      · by_cases hx : x.Valid = true <;>
          simp [minNullFold, validTimes, List.filter_cons, hx]
      · intro hv
        have hv' : x.Valid = true := hv
        have hvt : validTimes [x] = [x.Time] := by
          simp [validTimes, List.filter_cons, hv']
        simp [minNullFold, hvt, intMinList]
    | cons y rest' =>
      obtain ⟨ih1, ih2⟩ := ih (by simp)
      have heq : minNullFold (x :: y :: rest') =
          MinNullTime [x, minNullFold (y :: rest')] := rfl
      constructor
      · rw [heq, MinNullTime_pair, validTimes_cons]
        by_cases hx : x.Valid = true
        · rw [if_pos hx, if_pos hx]
          by_cases hc : (minNullFold (y :: rest')).Valid = true ∧
              (minNullFold (y :: rest')).Time < x.Time
          · rw [if_pos hc]
            simp [hc.1]
          · rw [if_neg hc]
            simp [hx]
        · rw [if_neg hx, if_neg hx]
          exact ih1
      · rw [heq, MinNullTime_pair]
        intro hv
        rw [validTimes_cons]
        by_cases hx : x.Valid = true
        · simp only [if_pos hx] at hv ⊢
          by_cases hm : (minNullFold (y :: rest')).Valid = true
          · have hvr : validTimes (y :: rest') ≠ [] := ih1.mp hm
            have hmt : (minNullFold (y :: rest')).Time =
                intMinList (validTimes (y :: rest')) := ih2 hm
            rw [intMinList_cons _ _ hvr, ← hmt]
            by_cases hlt : (minNullFold (y :: rest')).Time < x.Time
            · rw [if_pos ⟨hm, hlt⟩, min_eq_right hlt.le]
            · rw [if_neg (by tauto), min_eq_left (le_of_not_lt hlt)]
          · have hvr : validTimes (y :: rest') = [] := by
              by_contra hne
              exact hm (ih1.mpr hne)
            rw [hvr, if_neg (by simp [hm])]
            rfl
        · simp only [if_neg hx] at hv ⊢
          exact ih2 hv

/-- The binary max fold is the maximum of the non-null entries. -/
theorem maxNullFold_spec :
    ∀ ts : List NullTime, ts ≠ [] → isMaxOfValid (maxNullFold ts) ts := by
  intro ts
  induction ts with
  | nil => intro h; exact absurd rfl h
  | cons x rest ih =>
    intro _
    cases rest with
    | nil =>
      constructor
      · by_cases hx : x.Valid = true <;>
          simp [maxNullFold, validTimes, List.filter_cons, hx]
      · intro hv
        have hv' : x.Valid = true := hv
        have hvt : validTimes [x] = [x.Time] := by
          simp [validTimes, List.filter_cons, hv']
        simp [maxNullFold, hvt, intMaxList]
    | cons y rest' =>
      obtain ⟨ih1, ih2⟩ := ih (by simp)
      have heq : maxNullFold (x :: y :: rest') =
          MaxNullTime [x, maxNullFold (y :: rest')] := rfl
      constructor
      · rw [heq, MaxNullTime_pair, validTimes_cons]
        by_cases hx : x.Valid = true
        · rw [if_pos hx, if_pos hx]
          by_cases hc : (maxNullFold (y :: rest')).Valid = true ∧
              x.Time < (maxNullFold (y :: rest')).Time
          · rw [if_pos hc]
            simp [hc.1]
          · rw [if_neg hc]
            simp [hx]
        · rw [if_neg hx, if_neg hx]
          exact ih1
      · rw [heq, MaxNullTime_pair]
        intro hv
        rw [validTimes_cons]
        by_cases hx : x.Valid = true
        · simp only [if_pos hx] at hv ⊢
          by_cases hm : (maxNullFold (y :: rest')).Valid = true
          · have hvr : validTimes (y :: rest') ≠ [] := ih1.mp hm
            have hmt : (maxNullFold (y :: rest')).Time =
                intMaxList (validTimes (y :: rest')) := ih2 hm
            rw [intMaxList_cons _ _ hvr, ← hmt]
            by_cases hlt : x.Time < (maxNullFold (y :: rest')).Time
            · rw [if_pos ⟨hm, hlt⟩, max_eq_right hlt.le]
            · rw [if_neg (by tauto), max_eq_left (le_of_not_lt hlt)]
          · have hvr : validTimes (y :: rest') = [] := by
              by_contra hne
              exact hm (ih1.mpr hne)
            rw [hvr, if_neg (by simp [hm])]
            rfl
        · simp only [if_neg hx] at hv ⊢
          exact ih2 hv

/-- The aggregate state equals the spec fold, for lists of two or more. -/
theorem Aggregate_state :
    ∀ (rest : List Step) (s : Step), rest ≠ [] →
      (Aggregate (s :: rest)).data.State = aggStateSpec (s :: rest) := by
  intro rest
  induction rest with
  | nil => intro s h; exact absurd rfl h
  | cons t rest' ih =>
    intro s _
    cases rest' with
    | nil =>
      rw [Aggregate_state_rec s t [], (fixAllowFailure_data s).1,
        show Aggregate [t] = t from rfl, (fixAllowFailure_data t).1]
      rfl
    | cons u rest'' =>
      rw [Aggregate_state_rec s t (u :: rest''), (fixAllowFailure_data s).1,
        fixAllowFailure_id _ (Aggregate_allowFailure_false t u rest''),
        ih t (by simp)]
      rfl

/-- The aggregate creation timestamp is the binary min fold of the
children's. -/
theorem Aggregate_createdAt :
    ∀ (rest : List Step) (s : Step), rest ≠ [] →
      (Aggregate (s :: rest)).data.CreatedAt =
        minNullFold ((s :: rest).map (fun c => c.data.CreatedAt)) := by
  intro rest
  induction rest with
  | nil => intro s h; exact absurd rfl h
  | cons t rest' ih =>
    intro s _
    rw [Aggregate_createdAt_rec s t rest', (fixAllowFailure_data s).2.1,
      (fixAllowFailure_data (Aggregate (t :: rest'))).2.1]
    cases rest' with
    | nil => rfl
    | cons u rest'' =>
      rw [ih t (by simp)]
      rfl

/-- The aggregate start timestamp is the binary min fold of the children's. -/
theorem Aggregate_startedAt :
    ∀ (rest : List Step) (s : Step), rest ≠ [] →
      (Aggregate (s :: rest)).data.StartedAt =
        minNullFold ((s :: rest).map (fun c => c.data.StartedAt)) := by
  intro rest
  induction rest with
  | nil => intro s h; exact absurd rfl h
  | cons t rest' ih =>
    intro s _
    rw [Aggregate_startedAt_rec s t rest', (fixAllowFailure_data s).2.2.1,
      (fixAllowFailure_data (Aggregate (t :: rest'))).2.2.1]
    cases rest' with
    | nil => rfl
    | cons u rest'' =>
      rw [ih t (by simp)]
      rfl

/-- The aggregate finish timestamp is the binary max fold of the children's. -/
theorem Aggregate_finishedAt :
    ∀ (rest : List Step) (s : Step), rest ≠ [] →
      (Aggregate (s :: rest)).data.FinishedAt =
        maxNullFold ((s :: rest).map (fun c => c.data.FinishedAt)) := by
  intro rest
  induction rest with
  | nil => intro s h; exact absurd rfl h
  | cons t rest' ih =>
    intro s _
    rw [Aggregate_finishedAt_rec s t rest', (fixAllowFailure_data s).2.2.2.1,
      (fixAllowFailure_data (Aggregate (t :: rest'))).2.2.2.1]
    cases rest' with
    | nil => rfl
    | cons u rest'' =>
      rw [ih t (by simp)]
      rfl

/-- The aggregate update timestamp is the maximum of the children's. -/
theorem Aggregate_updatedAt :
    ∀ (rest : List Step) (s : Step), rest ≠ [] →
      (Aggregate (s :: rest)).data.UpdatedAt =
        intMaxList ((s :: rest).map (fun c => c.data.UpdatedAt)) := by
  intro rest
  induction rest with
  | nil => intro s h; exact absurd rfl h
  | cons t rest' ih =>
    intro s _
    rw [Aggregate_updatedAt_rec s t rest', (fixAllowFailure_data s).2.2.2.2,
      (fixAllowFailure_data (Aggregate (t :: rest'))).2.2.2.2, if_lt_max]
    cases rest' with
    | nil =>
      rw [show Aggregate [t] = t from rfl]
      rfl
    | cons u rest'' =>
      rw [ih t (by simp)]
      rfl

/-- C2 (counterexample): for the singleton list of a failed step marked
`allow_failure`, `Aggregate` returns the step unchanged (state failed);
the claimed fold would rewrite the state to passed, so the claim fails for
one-element lists. -/
theorem C2_counterexample :
    (Aggregate [allowFailStep]).data.State ≠ aggStateSpec [allowFailStep] := by
  decide

/-- C2 (amended): for every list of at least two steps, the aggregate's
state is the precedence-merge fold (with the allow-failure rewrite) of the
children's states, created/started are the minimum of the children's
(ignoring nulls), finished the maximum (ignoring nulls), updated the
maximum of the children's updated, and duration = finished - started when
both exist. -/
theorem C2_aggregate_fields (s t : Step) (rest : List Step) :
    ((Aggregate (s :: t :: rest)).data.State = aggStateSpec (s :: t :: rest))
    ∧ isMinOfValid (Aggregate (s :: t :: rest)).data.CreatedAt
        ((s :: t :: rest).map (fun c => c.data.CreatedAt))
    ∧ isMinOfValid (Aggregate (s :: t :: rest)).data.StartedAt
        ((s :: t :: rest).map (fun c => c.data.StartedAt))
    ∧ isMaxOfValid (Aggregate (s :: t :: rest)).data.FinishedAt
        ((s :: t :: rest).map (fun c => c.data.FinishedAt))
    ∧ ((Aggregate (s :: t :: rest)).data.UpdatedAt =
        intMaxList ((s :: t :: rest).map (fun c => c.data.UpdatedAt)))
    ∧ ((Aggregate (s :: t :: rest)).data.FinishedAt.Valid = true →
        (Aggregate (s :: t :: rest)).data.StartedAt.Valid = true →
        (Aggregate (s :: t :: rest)).data.Duration =
          ⟨true, (Aggregate (s :: t :: rest)).data.FinishedAt.Time -
            (Aggregate (s :: t :: rest)).data.StartedAt.Time⟩) := by
  refine ⟨Aggregate_state _ s (by simp), ?_, ?_, ?_,
    Aggregate_updatedAt _ s (by simp), ?_⟩
  · rw [Aggregate_createdAt _ s (by simp)]
    exact minNullFold_spec _ (by simp)
  · rw [Aggregate_startedAt _ s (by simp)]
    exact minNullFold_spec _ (by simp)
  · rw [Aggregate_finishedAt _ s (by simp)]
    exact maxNullFold_spec _ (by simp)
  · intro hf hs
    rw [Aggregate_duration_rec, NullSub, hf, hs]
    rfl

/-- C2 (witness): on two concrete children the aggregate state matches the
spec fold and the created timestamp is the least non-null child time. -/
theorem C2_witness :
    (Aggregate [witnessStepA, witnessStepB]).data.State =
        aggStateSpec [witnessStepA, witnessStepB]
    ∧ (Aggregate [witnessStepA, witnessStepB]).data.CreatedAt.Time =
        intMinList (validTimes
          ([witnessStepA, witnessStepB].map (fun c => c.data.CreatedAt))) := by
  obtain ⟨h1, h2, -, -, -, -⟩ :=
    C2_aggregate_fields witnessStepA witnessStepB []
  exact ⟨h1, h2.2 (by decide)⟩

/-! ## View-model depth cap: helper lemmas (C8) -/

/-- The slot-filling loop fails exactly when no slot is free. -/
theorem setFirstInvalid_none_iff (ids : List NullString) (s : String) :
    setFirstInvalid ids s = none ↔ countInvalid ids = 0 := by
  induction ids with
  | nil => simp [setFirstInvalid, countInvalid]
  | cons id rest ih =>
    by_cases h : id.Valid = true
    · simp only [setFirstInvalid, if_pos h]
      rw [Option.map_eq_none', ih]
      simp [countInvalid, List.filter_cons, h]
    · simp [setFirstInvalid, if_neg h, countInvalid, List.filter_cons, h]

/-- Filling a slot decreases the number of free slots by exactly one. -/
theorem setFirstInvalid_some_count :
    ∀ (ids : List NullString) (s : String) (ids' : List NullString),
      setFirstInvalid ids s = some ids' →
      countInvalid ids = countInvalid ids' + 1 := by
  intro ids
  induction ids with
  | nil => intro s ids' h; cases h
  | cons id rest ih =>
    intro s ids' h
    by_cases hv : id.Valid = true
    · simp only [setFirstInvalid, if_pos hv] at h
      rcases Option.map_eq_some'.1 h with ⟨rest', hr, rfl⟩
      have hrec := ih s rest' hr
      simp [countInvalid, List.filter_cons, hv] at hrec ⊢
      omega
    · simp only [setFirstInvalid, if_neg hv] at h
      cases h
      simp [countInvalid, List.filter_cons, hv]

/-- Joint induction: the projection errors only with the nesting-cap panic
message, and it does error whenever the subtree is deeper than the number of
free id slots. -/
theorem taskDepth_main (N : Nat) :
    (∀ s : Step, sizeOf s ≤ N →
      ∀ (ref : GitReference) (key : TaskKey) (provider number : String),
        (∀ m, taskFromStepE s ref key provider number = .error m →
          m = "exceeded maximum nesting depth for type task") ∧
        (countInvalid key.stepIDs < stepDepth s →
          taskFromStepE s ref key provider number =
            .error "exceeded maximum nesting depth for type task")) ∧
    (∀ l : List Step, sizeOf l ≤ N →
      ∀ (ref : GitReference) (key : TaskKey) (provider number : String),
        (∀ m, tasksFromSteps l ref key provider number = .error m →
          m = "exceeded maximum nesting depth for type task") ∧
        (countInvalid key.stepIDs < stepsDepth l →
          tasksFromSteps l ref key provider number =
            .error "exceeded maximum nesting depth for type task")) := by
  induction N using Nat.strong_induction_on with
  | _ N IH =>
    constructor
    · intro s hs ref key provider number
      cases s with
      | mk d cs =>
        have hsz : sizeOf cs < N := by
          have h1 : sizeOf cs < sizeOf (Step.mk d cs) := by
            simp only [Step.mk.sizeOf_spec]; omega
          omega
        have IHl := (IH (sizeOf cs) hsz).2 cs (le_refl _)
        cases hset : setFirstInvalid key.stepIDs d.ID with
        | none =>
          constructor
          · intro m hm
            simp only [taskFromStepE, hset, Except.error.injEq] at hm
            exact hm.symm
          · intro _
            simp [taskFromStepE, hset]
        | some ids =>
          have hcount := setFirstInvalid_some_count key.stepIDs d.ID ids hset
          constructor
          · intro m hm
            simp only [taskFromStepE, hset] at hm
            cases hts : tasksFromSteps cs ref ⟨key.providerHost, ids⟩ provider number with
            | error e =>
              rw [hts] at hm
              simp only [Except.error.injEq] at hm
              subst hm
              exact (IHl ref ⟨key.providerHost, ids⟩ provider number).1 e hts
            | ok children =>
              rw [hts] at hm
              simp at hm
          · intro hdepth
            simp only [stepDepth] at hdepth
            have hlt : countInvalid ids < stepsDepth cs := by omega
            have herr := (IHl ref ⟨key.providerHost, ids⟩ provider number).2 hlt
            simp [taskFromStepE, hset, herr]
    · intro l hl ref key provider number
      cases l with
      | nil =>
        constructor
        · intro m hm
          simp [tasksFromSteps] at hm
        · intro hd
          simp only [stepsDepth] at hd
          omega
      | cons c cs =>
        have hszc : sizeOf c < N := by
          have h1 : sizeOf c < sizeOf (c :: cs) := by
            simp only [List.cons.sizeOf_spec]; omega
          omega
        have hszcs : sizeOf cs < N := by
          have h1 : sizeOf cs < sizeOf (c :: cs) := by
            simp only [List.cons.sizeOf_spec]; omega
          omega
        have IHc := (IH (sizeOf c) hszc).1 c (le_refl _) ref key provider number
        have IHcs := (IH (sizeOf cs) hszcs).2 cs (le_refl _) ref key provider number
        constructor
        · intro m hm
          cases hc : taskFromStepE c ref key provider number with
          | error e =>
            simp only [tasksFromSteps, hc, Except.error.injEq] at hm
            subst hm
            exact IHc.1 e hc
          | ok t =>
            cases hcs : tasksFromSteps cs ref key provider number with
            | error e =>
              simp only [tasksFromSteps, hc, hcs, Except.error.injEq] at hm
              subst hm
              exact IHcs.1 e hcs
            | ok ts =>
              simp [tasksFromSteps, hc, hcs] at hm
        · intro hd
          simp only [stepsDepth] at hd
          rcases lt_max_iff.1 hd with hd' | hd'
          · have herr := IHc.2 hd'
            simp [tasksFromSteps, herr]
          · cases hc : taskFromStepE c ref key provider number with
            | error e =>
              have he : e = "exceeded maximum nesting depth for type task" :=
                IHc.1 e hc
              simp [tasksFromSteps, hc, he]
            | ok t =>
              have herr := IHcs.2 hd'
              simp [tasksFromSteps, hc, herr]

/-- Depth of the chain pipeline used as witness. -/
theorem chainStep_depth : ∀ n, stepDepth (chainStep n) = n + 1 := by
  intro n
  induction n with
  | zero => rfl
  | succ n ih =>
    show stepDepth (Step.mk _ [chainStep n]) = n + 1 + 1
    simp only [stepDepth, stepsDepth, ih]
    omega

/-- C8: step nesting in the view-model projection is capped at
`maxStepIDs = 10` path components; every pipeline containing a step whose
id-path from the root exceeds the cap projects to the deterministic panic
(no silent truncation). -/
theorem C8_depth_cap (p : Pipeline) (providerByID : String → Option CIProvider)
    (hdeep : maxStepIDs < stepDepth p.step) :
    maxStepIDs = 10 ∧
      taskFromPipelineE p providerByID =
        .error "exceeded maximum nesting depth for type task" := by
  refine ⟨rfl, ?_⟩
  have hcount :
      countInvalid (List.replicate maxStepIDs (⟨false, ""⟩ : NullString)) =
        maxStepIDs := by decide
  have h := ((taskDepth_main (sizeOf p.step)).1 p.step (le_refl _) p.gitRef
    ⟨p.providerHost, List.replicate maxStepIDs ⟨false, ""⟩⟩)
  unfold taskFromPipelineE
  exact (h _ _).2 (by rw [show (TaskKey.mk p.providerHost
    (List.replicate maxStepIDs ⟨false, ""⟩)).stepIDs =
      List.replicate maxStepIDs ⟨false, ""⟩ from rfl, hcount]; exact hdeep)

/-- C8 (witness): the 11-level chain pipeline projects to the deterministic
nesting-depth failure. -/
theorem C8_witness :
    maxStepIDs = 10 ∧
      taskFromPipelineE chainPipeline (fun _ => none) =
        .error "exceeded maximum nesting depth for type task" :=
  C8_depth_cap chainPipeline (fun _ => none)
    (by rw [show chainPipeline.step = chainStep 10 from rfl, chainStep_depth]
        decide)

end Citop
